import Mathlib

/-!
Shallow embedding of the tlua marshalling layer (tarantool-module), covering
the stack/guard discipline of `tlua/src/lib.rs` and the table accessor and
iterator of `tlua/src/lua_tables.rs`.

The Lua interpreter itself is external to the repository and is reachable only
through the C primitives (`lua_gettop`, `lua_pop`, `lua_settable`,
`lua_gettable`, `lua_next`, `lua_getmetatable`, `lua_setmetatable`,
`lua_newtable`, `lua_type`/`lua_typename`).  Those primitives are modelled
here over an explicit interpreter state: a value stack (head of the list is
the top of the stack), a globals table, and a heap of allocated tables with
their optional metatables.  Tables are association lists; `lua_gettable` /
`lua_settable` are modelled as raw access (the tables manipulated by the
embedded operations carry no metamethods).  The Rust functions of the
repository are then translated operation by operation on top of these
primitives; `assert!`/`assert_eq!` failures (panics) are modelled by an outer
`Option` with `none` for the panic.
-/

namespace Tlua

/-- A Lua value as visible through the stack: nil, boolean, number, string, a
reference to a heap-allocated table, or the globals table pushed by
`lua_pushglobaltable`. -/
inductive Val where
  | nil
  | boolean (b : Bool)
  | num (n : Int)
  | str (s : String)
  | tbl (id : Nat)
  | gtbl
deriving DecidableEq

/-- The value stack of one interpreter state; the head of the list is the top
of the stack. -/
abbrev Stack := List Val

/-- A Lua table, modelled as an association list of key/value entries in
insertion order (the enumeration order `lua_next` walks). -/
abbrev Table := List (Val × Val)

/-- `ffi::lua_gettop`: the current stack height. -/
def lua_gettop (s : Stack) : Nat := s.length

/-- `ffi::lua_pop(l, n)`: remove the top `n` slots. -/
def luaPop (s : Stack) (n : Nat) : Stack := s.drop n

/-- Element lookup in a list by position (0 = head). -/
def nth {α : Type _} : List α → Nat → Option α
  | [], _ => none
  | a :: _, 0 => some a
  | _ :: l, n + 1 => nth l n

/-- Replace the element at a position of a list (no effect out of range). -/
def setNth {α : Type _} : List α → Nat → α → List α
  | [], _, _ => []
  | _ :: l, 0, b => b :: l
  | a :: l, n + 1, b => a :: setNth l n b

/-- Resolution of a Lua stack index: a positive index counts 1-based from the
bottom of the stack, a negative index counts from the top (-1 is the top).
Out-of-range indices resolve to nothing (`LUA_TNONE`). -/
def stackIndex (s : Stack) (i : Int) : Option Val :=
  if i < 0 then nth s ((-i).toNat - 1)
  else if 0 < i ∧ i.toNat ≤ s.length then nth s (s.length - i.toNat)
  else none

/-- `AbsoluteIndex::new` of `tlua/src/lib.rs`: a relative (negative) index is
fixed against the current height as `top + i + 1`; a positive index is kept. -/
def absoluteIndex (s : Stack) (i : Int) : Int :=
  if i < 0 then (s.length : Int) + i + 1 else i

/-- One interpreter state: the value stack, the globals table, the heap of
allocated tables, and (parallel to the heap) each table's metatable
reference. -/
structure LState where
  stack : Stack
  globals : Table
  tables : List Table
  metas : List (Option Nat)
deriving DecidableEq

/-- The table object a stack value refers to in a given state. -/
def LState.getTable (st : LState) : Val → Option Table
  | .gtbl => some st.globals
  | .tbl id => nth st.tables id
  | _ => none

/-- Store back the table object a stack value refers to. -/
def LState.setTable (st : LState) (r : Val) (t : Table) : LState :=
  match r with
  | .gtbl => { st with globals := t }
  | .tbl id => { st with tables := setNth st.tables id t }
  | _ => st

/-- Raw table read: the value stored under a key, or nil when absent. -/
def rawget : Table → Val → Val
  | [], _ => .nil
  | (k', v') :: rest, k => if k' = k then v' else rawget rest k

/-- Raw table write: storing nil removes the entry, any other value inserts or
replaces it, keeping the position of a replaced entry. -/
def rawset : Table → Val → Val → Table
  | [], k, v => if v = .nil then [] else [(k, v)]
  | (k', v') :: rest, k, v =>
      if k' = k then (if v = .nil then rest else (k, v) :: rest)
      else (k', v') :: rawset rest k v

/-- `ffi::lua_istable`: whether the slot at the index holds a table value. -/
def lua_istable (s : Stack) (i : Int) : Bool :=
  match stackIndex s i with
  | some (.tbl _) => true
  | some .gtbl => true
  | _ => false

/-- `ffi::lua_gettable(l, tindex)`: pop the key at the top and push the value
it maps to in the table at `tindex` (raw access: the tables the embedded
operations touch have no `__index` metamethod). -/
def lua_gettable (st : LState) (tindex : Int) : LState :=
  match st.stack with
  | k :: rest =>
    let v := match (stackIndex st.stack tindex).bind st.getTable with
      | some t => rawget t k
      | none => Val.nil
    { st with stack := v :: rest }
  | [] => st

/-- `ffi::lua_settable(l, tindex)`: pop the value at the top and the key below
it and store the pair into the table at `tindex` (raw access). -/
def lua_settable (st : LState) (tindex : Int) : LState :=
  match st.stack with
  | v :: k :: rest =>
    match stackIndex st.stack tindex with
    | some r =>
      match st.getTable r with
      | some t => { st.setTable r (rawset t k v) with stack := rest }
      | none => { st with stack := rest }
    | none => { st with stack := rest }
  | _ => st

/-- `ffi::lua_newtable`: allocate a fresh empty table (with no metatable) and
push a reference to it. -/
def lua_newtable (st : LState) : LState :=
  { st with
    stack := Val.tbl st.tables.length :: st.stack
    tables := st.tables ++ [[]]
    metas := st.metas ++ [none] }

/-- `ffi::lua_getmetatable(l, tindex)`: when the value at `tindex` is a heap
table with a metatable, push that metatable and report 1 (`true`); otherwise
push nothing and report 0 (`false`). -/
def lua_getmetatable (st : LState) (tindex : Int) : Bool × LState :=
  match stackIndex st.stack tindex with
  | some (.tbl id) =>
    match nth st.metas id with
    | some (some m) => (true, { st with stack := Val.tbl m :: st.stack })
    | _ => (false, st)
  | _ => (false, st)

/-- `ffi::lua_setmetatable(l, tindex)`: pop the table at the top and install
it as the metatable of the heap table at `tindex`. -/
def lua_setmetatable (st : LState) (tindex : Int) : LState :=
  match st.stack with
  | .tbl m :: rest =>
    match stackIndex st.stack tindex with
    | some (.tbl id) => { st with stack := rest, metas := setNth st.metas id (some m) }
    | _ => { st with stack := rest }
  | _ => st

/-! ## Stack guards (`PushGuard` of `tlua/src/lib.rs`) -/

/-- `PushGuard` of `tlua/src/lib.rs`: scoped ownership of `size` slots at the
top of the stack; `top` is the height recorded at construction time. -/
structure PushGuard where
  top : Int
  size : Nat
deriving DecidableEq

/-- The body of `impl Drop for PushGuard`: when the owned size is not zero,
pop exactly that many slots; a zero-sized guard pops nothing. -/
def pushGuardPop (size : Nat) (s : Stack) : Stack :=
  if size ≠ 0 then luaPop s size else s

/-- Dropping a `PushGuard`: the effect of `impl Drop for PushGuard` on the
stack. -/
def PushGuard.drop (g : PushGuard) (s : Stack) : Stack :=
  pushGuardPop g.size s

/-- `PushGuard::forget_internal`: zero the owned size (so the later drop pops
nothing) and return the former size. -/
def PushGuard.forget_internal (g : PushGuard) : Nat × PushGuard :=
  (g.size, { g with size := 0 })

/-- `PushGuard::forget`: delegates to `forget_internal`. -/
def PushGuard.forget (g : PushGuard) : Nat × PushGuard :=
  g.forget_internal

/-! ## Push capability

A push implementation (`Push`/`PushInto` of `tlua/src/lib.rs`, with the
concrete implementations living in modules outside the provided sources) is
modelled as a stack transformer that either succeeds, returning the new stack
together with the size of the returned guard, or fails with a typed error and
a resulting stack.  The trait's contract — success appends exactly the guarded
slots, failure leaves the stack as it was — is stated as explicit predicates
and assumed where an operation relies on it. -/

/-- Outcome of one push attempt: the new stack plus the returned guard's size,
or a typed error plus the resulting stack. -/
inductive PushOut (E : Type) where
  | ok (stack : Stack) (size : Nat)
  | err (e : E) (stack : Stack)
deriving DecidableEq

/-- A push implementation with error type `E`. -/
def Pusher (E : Type) := Stack → PushOut E

/-- Push-contract, failure half: a failed push returns the stack exactly as it
was (spec §8: height changes by zero on failure). -/
def PushErrRestores {E : Type} (p : Pusher E) : Prop :=
  ∀ s e s₂, p s = .err e s₂ → s₂ = s

/-- Push-contract, success half: a successful push appends exactly the slots
the returned guard owns. -/
def PushOkAppends {E : Type} (p : Pusher E) : Prop :=
  ∀ s s₂ n, p s = .ok s₂ n → ∃ vs, s₂ = vs ++ s ∧ vs.length = n

/-! ## `checked_set` (table and global) -/

/-- Error returned by `LuaTable::checked_set` (`tlua/src/lua_tables.rs`): the
key push or the value push failed. -/
inductive CheckedSetError (K V : Type) where
  | keyPushError (e : K)
  | valuePushError (e : V)
deriving DecidableEq

/-- `LuaTable::checked_set` of `tlua/src/lua_tables.rs`, for the table whose
reference sits at absolute stack index `tindex`: push the key (returning
`KeyPushError` on failure), assert the guard holds one slot, push the value
(returning `ValuePushError` on failure, at which point the key guard is
dropped), assert one slot, forget both guards and let `lua_settable` consume
key and value.  The outer `Option` is `none` when an `assert_eq!` panics. -/
def LuaTable.checked_set {K V : Type} (keyP : Pusher K) (valP : Pusher V)
    (tindex : Int) (st : LState) :
    Option (Option (CheckedSetError K V) × LState) :=
  match keyP st.stack with
  | .err e s₁ => some (some (.keyPushError e), { st with stack := s₁ })
  | .ok s₁ gsize =>
    if gsize = 1 then
      match valP s₁ with
      | .err e s₂ =>
        -- the key guard goes out of scope here: its drop pops `gsize` slots
        some (some (.valuePushError e), { st with stack := pushGuardPop gsize s₂ })
      | .ok s₂ vsize =>
        if vsize = 1 then
          -- pushed.forget(); guard.forget(); lua_settable consumes key and value
          some (none, lua_settable { st with stack := s₂ } tindex)
        else none
    else none

/-- `Lua::checked_set` of `tlua/src/lib.rs`: push the globals table, push the
variable name (a string push: a single slot that cannot fail, immediately
forgotten), then try to push the value; on failure pop the two pushed slots
and return the value's error, on success (asserted one slot, forgotten) store
through `lua_settable` at index `-3` and pop the globals table. -/
def Lua.checked_set {V : Type} (name : String) (valP : Pusher V) (st : LState) :
    Option (Option V × LState) :=
  let s₁ := Val.gtbl :: st.stack
  let s₂ := Val.str name :: s₁
  match valP s₂ with
  | .err e s₃ => some (some e, { st with stack := luaPop s₃ 2 })
  | .ok s₃ vsize =>
    if vsize = 1 then
      let st₁ := lua_settable { st with stack := s₃ } (-3)
      some (none, { st₁ with stack := luaPop st₁.stack 1 })
    else none

/-! ## Read capability (`LuaRead` of `tlua/src/lib.rs`)

A read implementation receives the capability (which in this embedding
carries the whole interpreter state) and a stack index, and returns either
the parsed value (consuming the capability) or the capability back.  The
trait's default methods `lua_read` and `lua_read_at_maybe_zero_position` are
embedded generically over the implementation's `lua_read_at_position`. -/

/-- `tlua::LuaTable<L>` as a read result: the captured capability and the
resolved absolute index of the table value. -/
structure LuaTableOn where
  lua : LState
  index : Int
deriving DecidableEq

/-- `impl LuaRead for LuaTable` (`tlua/src/lua_tables.rs`):
`lua_read_at_position` checks `lua_istable` at the index and either wraps the
capability in a `LuaTable` (resolving the index through `AbsoluteIndex::new`)
or returns it unchanged. -/
def LuaTable.lua_read_at_position (lua : LState) (index : Int) :
    Except LState LuaTableOn :=
  if lua_istable lua.stack index then
    .ok ⟨lua, absoluteIndex lua.stack index⟩
  else
    .error lua

/-- Default `LuaRead::lua_read_at_maybe_zero_position`: a zero index fails
right away with the capability returned; a non-zero index dispatches to the
implementation's `lua_read_at_position`. -/
def lua_read_at_maybe_zero_position {α : Type}
    (readPos : LState → Int → Except LState α) (lua : LState) (index : Int) :
    Except LState α :=
  if index = 0 then .error lua else readPos lua index

/-- Default `LuaRead::lua_read`: reads at relative index `-n_values_expected`.
The `NonZeroI32::new(...).expect(...)` panic for `n_values_expected = 0` is
modelled by the outer `Option`. -/
def lua_read {α : Type} (nValuesExpected : Nat)
    (readPos : LState → Int → Except LState α) (lua : LState) :
    Option (Except LState α) :=
  if nValuesExpected = 0 then none
  else some (readPos lua (-(nValuesExpected : Int)))

/-- `AsLua::read_at` of `tlua/src/lib.rs`: delegates to
`lua_read_at_maybe_zero_position`. -/
def read_at {α : Type} (readPos : LState → Int → Except LState α)
    (lua : LState) (index : Int) : Except LState α :=
  lua_read_at_maybe_zero_position readPos lua index

/-- A read implementation is non-consuming on failure: whenever it fails it
hands back exactly the capability it was given (so the stack it carries is
untouched and the same slot can be re-read as another type). -/
def NonConsuming {α : Type} (readPos : LState → Int → Except LState α) : Prop :=
  ∀ lua index lua₂, readPos lua index = .error lua₂ → lua₂ = lua

/-! ## Table lookup (`LuaTable::get` / `get_impl`)

The result types read by `get` extract a host value by inspecting the stack;
such a reader is modelled as a pure inspection `Stack → Int → Option α`.  The
single slot owned by the `PushGuard` created in `get_impl` is popped whether
the read succeeds (the value reader extracts the host value and the guard is
dropped) or fails (the returned `Err(guard)` is dropped by the caller). -/

/-- `LuaTable::get_impl` of `tlua/src/lua_tables.rs` for the table at absolute
index `tindex`: push the key (its pusher has an uninhabited error type, so the
push is modelled by the key value itself, one slot, immediately forgotten),
run `lua_gettable`, read the result at the top under a one-slot guard, and
drop that guard. -/
def LuaTable.get_impl {α : Type} (key : Val) (reader : Stack → Int → Option α)
    (tindex : Int) (st : LState) : Option α × LState :=
  let st₁ := { st with stack := key :: st.stack }
  let st₂ := lua_gettable st₁ tindex
  (reader st₂.stack (-1), { st₂ with stack := pushGuardPop 1 st₂.stack })

/-- `LuaTable::get`: `get_impl(...).ok()` — the same state effect, with the
value already optional. -/
def LuaTable.get {α : Type} (key : Val) (reader : Stack → Int → Option α)
    (tindex : Int) (st : LState) : Option α × LState :=
  LuaTable.get_impl key reader tindex st

/-! ## Error taxonomy and type descriptors (`tlua/src/lib.rs`) -/

/-- `LuaError` of `tlua/src/lib.rs` (the `ReadError` payload, an
`std::io::Error`, is abstracted to its message). -/
inductive LuaError where
  | syntaxError (s : String)
  | executionError (s : String)
  | readError (s : String)
  | wrongType (rust_expected : String) (lua_actual : String)
deriving DecidableEq

/-- `lua_typename ∘ lua_type` for a stack value. -/
def luaTypename : Val → String
  | .nil => "nil"
  | .boolean _ => "boolean"
  | .num _ => "number"
  | .str _ => "string"
  | .tbl _ => "table"
  | .gtbl => "table"

/-- `tlua::typename(lua, i)`: the dynamic type name at a (1-based absolute)
stack position; an invalid position has type `LUA_TNONE`, printed
"no value". -/
def typenameAt (s : Stack) (i : Nat) : String :=
  match stackIndex s (Int.ofNat i) with
  | some v => luaTypename v
  | none => "no value"

/-- `tlua::typenames` of `tlua/src/lib.rs`: the observed type descriptor for
`count` consecutive positions starting at absolute position `start` — `"()"`
for zero positions, the bare name for one, and otherwise the loop that joins
`"("`, each name followed by `", "`, the last name and `")"`. -/
def typenames (s : Stack) (start : Nat) (count : Nat) : String :=
  match count with
  | 0 => "()"
  | 1 => typenameAt s start
  | _ =>
    let joined := (List.range (count - 1)).foldl
      (fun acc j => acc ++ typenameAt s (start + j) ++ ", ") "("
    joined ++ typenameAt s (start + count - 1) ++ ")"

/-- `LuaError::wrong_type::<T>(lua, n_values)`: the expected descriptor is the
host type's name (a parameter here), the actual descriptor is `typenames`
over the `n_values` positions ending at the top of the stack (the start
position is `AbsoluteIndex::new(-n_values)`). -/
def LuaError.wrong_type (rust_expected : String) (s : Stack) (n_values : Nat) :
    LuaError :=
  let start := absoluteIndex s (-(n_values : Int))
  .wrongType rust_expected (typenames s start.toNat n_values)

/-- Modelled from the spec: the error construction on the result-read path of
a callable invocation (`LuaFunction::call` lives in `tlua/src/lua_functions.rs`,
which is not among the provided sources).  Per the spec, when decoding the
call's produced results into the requested host type fails, the `WrongType`
error is built over all `nresults` observed values — the full observed type
set, including values beyond the requested tuple arity. -/
def callReadError (rust_expected : String) (s : Stack) (nresults : Nat) :
    LuaError :=
  LuaError.wrong_type rust_expected s nresults

/-! ## Table iteration (`tlua/src/lua_tables.rs`) -/

/-- The entries of a table that `lua_next` has still to produce once the
current key is `k`: all of them while the traversal key is nil (the fresh
iterator), and the entries strictly after the entry holding `k` otherwise. -/
def afterKey : Table → Val → Table
  | [], _ => []
  | (k', _) :: rest, k => if k' = k then rest else afterKey rest k

/-- The pending part of a traversal keyed by `k` (nil keys a fresh
traversal). -/
def pendingAfter (t : Table) (k : Val) : Table :=
  match k with
  | .nil => t
  | _ => afterKey t k

/-- The entry `lua_next` yields after key `k`, walking the table in entry
order. -/
def nextEntry (t : Table) (k : Val) : Option (Val × Val) :=
  (pendingAfter t k).head?

/-- `ffi::lua_next(l, tindex)`: pop the traversal key at the top; push the
next key and value and report `true`, or push nothing and report `false` when
the traversal is exhausted. -/
def lua_next (st : LState) (tindex : Int) : Bool × LState :=
  match (stackIndex st.stack tindex).bind st.getTable, st.stack with
  | some t, k :: rest =>
    match nextEntry t k with
    | some (k', v') => (true, { st with stack := v' :: k' :: rest })
    | none => (false, { st with stack := rest })
  | _, _ => (false, st)

/-- `LuaTableIterator` of `tlua/src/lua_tables.rs`: the finished flag and the
stack height recorded at the previous yield (`last_top`). -/
structure LuaTableIterator where
  finished : Bool
  lastTop : Nat
deriving DecidableEq

/-- `LuaTable::iter`: push nil (the fresh traversal key) and record the
resulting stack height as `last_top`. -/
def LuaTable.iter (st : LState) : LuaTableIterator × LState :=
  let st₁ := { st with stack := Val.nil :: st.stack }
  (⟨false, lua_gettop st₁.stack⟩, st₁)

/-- `LuaTableIterator::next` for the table at absolute index `tindex`, with
the key read non-consumingly at `-2` and the value read at `-1` under a
one-slot guard that is dropped before the call returns.  The outer `Option`
is `none` exactly when the `assert_eq!(self.last_top, lua_gettop(..))` panics
("lua stack is corrupt"); otherwise the `Iterator::next` result is `none` at
exhaustion, `some none` for an entry whose key or value failed to decode, and
`some (some (k, v))` for a decoded entry. -/
def LuaTableIterator.next {κ ν : Type} (kr : Stack → Int → Option κ)
    (vr : Stack → Int → Option ν) (tindex : Int)
    (it : LuaTableIterator) (st : LState) :
    Option (Option (Option (κ × ν)) × LuaTableIterator × LState) :=
  if it.finished then some (none, it, st)
  else if lua_gettop st.stack ≠ it.lastTop then none
  else
    match lua_next st tindex with
    | (false, st₂) => some (none, { it with finished := true }, st₂)
    | (true, st₂) =>
      let key? := kr st₂.stack (-2)
      let val? := vr st₂.stack (-1)
      let st₃ := { st₂ with stack := pushGuardPop 1 st₂.stack }
      match key?, val? with
      | some k, some v => some (some (some (k, v)), it, st₃)
      | _, _ => some (some none, it, st₃)

/-- Driving the iterator to exhaustion, as a `for` loop over `Iterator::next`
would: collect the yielded items until `next` returns `None`.  Fuel bounds the
number of `next` calls; `none` stands for a panic inside `next` or for
running out of fuel. -/
def runIter {κ ν : Type} (kr : Stack → Int → Option κ)
    (vr : Stack → Int → Option ν) (tindex : Int) :
    Nat → LuaTableIterator → LState →
    Option (List (Option (κ × ν)) × LState)
  | 0, _, _ => none
  | fuel + 1, it, st =>
    match LuaTableIterator.next kr vr tindex it st with
    | none => none
    | some (none, _, st₂) => some ([], st₂)
    | some (some item, it₂, st₂) =>
      match runIter kr vr tindex fuel it₂ st₂ with
      | none => none
      | some (items, st₃) => some (item :: items, st₃)

/-! ## Metatables (`LuaTable::get_or_create_metatable`) -/

/-- `LuaTable::get_or_create_metatable` of `tlua/src/lua_tables.rs` for the
table at absolute index `tindex`: fetch the metatable onto the stack; when
there is none, create an empty table, install it as the metatable and fetch
it again.  The caller receives the slot at the top under a one-slot guard
(`LuaTable::new(PushGuard::new(lua, 1), -1)`). -/
def LuaTable.get_or_create_metatable (tindex : Int) (st : LState) : LState :=
  match lua_getmetatable st tindex with
  | (true, st₁) => st₁
  | (false, st₁) =>
    let st₂ := lua_newtable st₁
    let st₃ := lua_setmetatable st₂ tindex
    (lua_getmetatable st₃ tindex).2

/-! ## Helper lemmas -/

/-- A stack slot addressed by a positive index within the lower part of the
stack is unaffected by one value pushed on top. -/
theorem stackIndex_cons (x : Val) (s : Stack) (i : Int)
    (hpos : 0 < i) (hle : i.toNat ≤ s.length) :
    stackIndex (x :: s) i = stackIndex s i := by
  have h₁ : ¬ i < 0 := by omega
  have h₂ : 1 ≤ i.toNat := by omega
  simp only [stackIndex, List.length_cons, if_neg h₁]
  rw [if_pos ⟨hpos, by omega⟩, if_pos ⟨hpos, hle⟩]
  have h₃ : s.length + 1 - i.toNat = (s.length - i.toNat) + 1 := by omega
  rw [h₃]
  rfl

/-- Popping the slots a push appended restores the stack below them. -/
theorem luaPop_append (vs s : Stack) : luaPop (vs ++ s) vs.length = s := by
  simp [luaPop]

/-- `nth` succeeds only within the list. -/
theorem nth_lt_length {α : Type _} (l : List α) (n : Nat) (a : α)
    (h : nth l n = some a) : n < l.length := by
  induction l generalizing n with
  | nil => simp [nth] at h
  | cons b rest ih =>
    cases n with
    | zero => simp
    | succ m => exact Nat.succ_lt_succ (ih m h)

/-- Reading back the position `setNth` wrote. -/
theorem nth_setNth_self {α : Type _} (l : List α) (n : Nat) (b : α)
    (h : n < l.length) : nth (setNth l n b) n = some b := by
  induction l generalizing n with
  | nil => simp at h
  | cons a rest ih =>
    cases n with
    | zero => rfl
    | succ m => exact ih m (Nat.lt_of_succ_lt_succ h)

end Tlua

namespace Tlua

/-! ## C10 — reading at explicit index zero -/

/-- C10: for every read implementation, `read_at` (and the default
`lua_read_at_maybe_zero_position` it delegates to) with explicit index 0
always fails, handing back the capability unchanged — the zero index is
rejected before any stack access. -/
theorem read_at_zero_always_fails {α : Type}
    (readPos : LState → Int → Except LState α) (lua : LState) :
    read_at readPos lua 0 = .error lua ∧
    lua_read_at_maybe_zero_position readPos lua 0 = .error lua :=
  ⟨rfl, rfl⟩

/-! ## C4 — table lookup is stack-neutral -/

/-- C4: `LuaTable::get` (through `get_impl`) pushes the key as one guarded
slot, performs the raw lookup, reads the result at the top, and always pops
exactly one slot whether the read succeeds or fails — the state after a
completed `get` is exactly the state before it, so the net stack height
change is zero. -/
theorem get_is_stack_neutral {α : Type} (key : Val)
    (reader : Stack → Int → Option α) (tindex : Int) (st : LState) :
    (LuaTable.get key reader tindex st).2 = st ∧
    (LuaTable.get_impl key reader tindex st).2 = st ∧
    lua_gettop (LuaTable.get_impl key reader tindex st).2.stack
      = lua_gettop st.stack :=
  ⟨rfl, rfl, rfl⟩

/-! ## C2 — guard lifecycle -/

/-- C2: dropping a `PushGuard` of size `n` pops exactly the `n` owned slots;
after `forget` (which zeroes the owned size and returns it) dropping the
guard pops nothing, so the same physical slots are never popped both by the
guard and by the owner the size was merged into; a zero-sized guard is a
no-op on drop. -/
theorem pushguard_lifecycle (g : PushGuard) (s : Stack)
    (h : g.size ≤ s.length) :
    g.drop s = luaPop s g.size ∧
    (g.drop s).length + g.size = s.length ∧
    g.forget.1 = g.size ∧
    (g.forget.2).size = 0 ∧
    (g.forget.2).drop s = s ∧
    (g.size = 0 → g.drop s = s) := by
  have hdrop : g.drop s = luaPop s g.size := by
    by_cases h0 : g.size = 0
    · simp [PushGuard.drop, pushGuardPop, h0, luaPop]
    · simp [PushGuard.drop, pushGuardPop, h0]
  refine ⟨hdrop, ?_, rfl, rfl, ?_, ?_⟩
  · rw [hdrop]
    simp only [luaPop, List.length_drop]
    omega
  · simp [PushGuard.forget, PushGuard.forget_internal, PushGuard.drop, pushGuardPop]
  · intro h0
    simp [PushGuard.drop, pushGuardPop, h0]

/-- Witness for C2 at a concrete guard and stack. -/
theorem pushguard_lifecycle_witness :
    (PushGuard.mk 3 2).drop [Val.nil, Val.num 1, Val.str "a"]
        = [Val.str "a"] ∧
    ((PushGuard.mk 3 2).forget.2).drop [Val.nil, Val.num 1, Val.str "a"]
        = [Val.nil, Val.num 1, Val.str "a"] := by
  have h := pushguard_lifecycle (PushGuard.mk 3 2)
    [Val.nil, Val.num 1, Val.str "a"] (by decide)
  exact ⟨by rw [h.1]; rfl, h.2.2.2.2.1⟩

/-! ## C3 — read failure is non-consuming -/

/-- C3: a failed read returns the original capability unchanged (with the
stack it carries untouched), so the same slot can immediately be re-read as a
different type: the concrete `LuaRead` implementation for `LuaTable` is
non-consuming on failure, and the generic dispatchers `lua_read`,
`lua_read_at_maybe_zero_position` and `read_at` preserve the property of the
implementation they dispatch to. -/
theorem read_failure_returns_capability :
    NonConsuming LuaTable.lua_read_at_position ∧
    (∀ {α : Type} (rp : LState → Int → Except LState α),
      NonConsuming rp → NonConsuming (lua_read_at_maybe_zero_position rp)) ∧
    (∀ {α : Type} (rp : LState → Int → Except LState α),
      NonConsuming rp → NonConsuming (read_at rp)) ∧
    (∀ {α : Type} (rp : LState → Int → Except LState α),
      NonConsuming rp → ∀ n lua bad,
        lua_read n rp lua = some (.error bad) → bad = lua) := by
  have hmz : ∀ {α : Type} (rp : LState → Int → Except LState α),
      NonConsuming rp → NonConsuming (lua_read_at_maybe_zero_position rp) := by
    intro α rp hrp lua index bad h
    by_cases h0 : index = 0
    · simp only [lua_read_at_maybe_zero_position, h0, if_pos rfl] at h
      exact (Except.error.injEq _ _).mp h.symm |>.symm ▸ rfl
    · simp only [lua_read_at_maybe_zero_position, if_neg h0] at h
      exact hrp _ _ _ h
  refine ⟨?_, hmz, ?_, ?_⟩
  · intro lua index bad h
    by_cases ht : lua_istable lua.stack index
    · simp [LuaTable.lua_read_at_position, ht] at h
    · simp only [LuaTable.lua_read_at_position, if_neg ht,
        Except.error.injEq] at h
      exact h.symm
  · intro α rp hrp
    exact hmz rp hrp
  · intro α rp hrp n lua bad h
    by_cases h0 : n = 0
    · simp [lua_read, h0] at h
    · simp only [lua_read, if_neg h0, Option.some.injEq] at h
      exact hrp _ _ _ h

/-! ## C5 — iterator step precondition -/

/-- C5: a call to `LuaTableIterator::next` panics ("lua stack is corrupt",
modelled by the outer `none`) exactly when the iterator is not yet finished
and the current stack height differs from the height recorded at the
previous yield; in every other situation it returns a value, so the height
mismatch is a fatal consistency violation and never surfaces as a
recoverable error value. -/
theorem iterator_step_asserts_stack_balance {κ ν : Type}
    (kr : Stack → Int → Option κ) (vr : Stack → Int → Option ν)
    (tindex : Int) (it : LuaTableIterator) (st : LState) :
    LuaTableIterator.next kr vr tindex it st = none ↔
      it.finished = false ∧ lua_gettop st.stack ≠ it.lastTop := by
  constructor
  · intro h
    by_cases hf : it.finished
    · simp [LuaTableIterator.next, hf] at h
    · refine ⟨eq_false_of_ne_true hf, ?_⟩
      intro hh
      simp only [LuaTableIterator.next, if_neg hf,
        if_neg (not_not_intro hh)] at h
      rcases hnx : lua_next st tindex with ⟨b, st₂⟩
      rw [hnx] at h
      cases b
      · simp at h
      · simp only [] at h
        cases hk : kr st₂.stack (-2) <;> cases hv : vr st₂.stack (-1) <;>
          rw [hk, hv] at h <;> simp at h
  · rintro ⟨hf, hh⟩
    simp [LuaTableIterator.next, hf, hh]

/-! ## C1 — atomicity of composite set -/

/-- C1: if either the key push or the value push fails during a
`checked_set` — on a table (`LuaTable::checked_set`) or on a global
(`Lua::checked_set`) — the operation installs no partial entry and returns
with the whole interpreter state (in particular the stack, at its exact
pre-operation height, and every table) unchanged, and the returned error
identifies which component failed: `KeyPushError` versus `ValuePushError`
for the table variant, and the value pusher's own error for the global
variant, whose key push (a plain string) cannot fail. -/
theorem checked_set_failure_is_atomic {K V : Type}
    (keyP : Pusher K) (valP : Pusher V)
    (hkErr : PushErrRestores keyP) (hkOk : PushOkAppends keyP)
    (hvErr : PushErrRestores valP) (tindex : Int) (st : LState) :
    (∀ e s₂, keyP st.stack = .err e s₂ →
      LuaTable.checked_set keyP valP tindex st
        = some (some (.keyPushError e), st)) ∧
    (∀ s₁ e s₂, keyP st.stack = .ok s₁ 1 → valP s₁ = .err e s₂ →
      LuaTable.checked_set keyP valP tindex st
        = some (some (.valuePushError e), st)) ∧
    (∀ name e s₂, valP (Val.str name :: Val.gtbl :: st.stack) = .err e s₂ →
      Lua.checked_set name valP st = some (some e, st)) := by
  refine ⟨?_, ?_, ?_⟩
  · intro e s₂ hk
    have hs : s₂ = st.stack := hkErr _ _ _ hk
    subst hs
    simp only [LuaTable.checked_set, hk]
  · intro s₁ e s₂ hk hv
    have hs₂ : s₂ = s₁ := hvErr _ _ _ hv
    obtain ⟨vs, hvs, hlen⟩ := hkOk _ _ _ hk
    obtain ⟨x, hx⟩ := List.length_eq_one.mp hlen
    subst hs₂ hvs hx
    simp only [List.singleton_append] at hk hv
    simp only [LuaTable.checked_set, hk, if_pos rfl, hv, pushGuardPop,
      luaPop, List.drop_succ_cons, List.drop_zero,
      ne_eq, one_ne_zero, not_false_eq_true, if_true]
  · intro name e s₂ hv
    have hs₂ : s₂ = Val.str name :: Val.gtbl :: st.stack := hvErr _ _ _ hv
    subst hs₂
    simp only [Lua.checked_set, hv, luaPop, List.drop_succ_cons,
      List.drop_zero]

/-- A push implementation that always fails, leaving the stack as it was
(the push contract's failure half). -/
def failPusher : Pusher Unit := fun s => .err () s

/-- A push implementation that always succeeds, pushing the given single
value. -/
def okPusher (v : Val) : Pusher Unit := fun s => .ok (v :: s) 1

/-- `failPusher` restores the stack on failure. -/
theorem failPusher_restores : PushErrRestores failPusher := by
  intro s e s₂ h
  simp only [failPusher, PushOut.err.injEq] at h
  exact h.2.symm

/-- `failPusher` never succeeds, so the success contract holds vacuously. -/
theorem failPusher_appends : PushOkAppends failPusher := by
  intro s s₂ n h
  simp [failPusher] at h

/-- `okPusher` never fails, so the failure contract holds vacuously. -/
theorem okPusher_restores (v : Val) : PushErrRestores (okPusher v) := by
  intro s e s₂ h
  simp [okPusher] at h

/-- `okPusher` appends exactly the one slot its guard owns. -/
theorem okPusher_appends (v : Val) : PushOkAppends (okPusher v) := by
  intro s s₂ n h
  simp only [okPusher, PushOut.ok.injEq] at h
  exact ⟨[v], h.1.symm, h.2⟩

/-- An interpreter state holding one table reference on the stack, used to
exercise `checked_set` concretely. -/
def c1State : LState :=
  { stack := [Val.tbl 0], globals := [], tables := [[]], metas := [none] }

/-- Witness for C1: the theorem applied at `c1State` with a failing key
pusher, then with a failing value pusher, then to the global variant. -/
theorem checked_set_failure_is_atomic_witness :
    LuaTable.checked_set failPusher (okPusher (Val.num 5)) 1 c1State
      = some (some (.keyPushError ()), c1State) ∧
    LuaTable.checked_set (okPusher (Val.num 7)) failPusher 1 c1State
      = some (some (.valuePushError ()), c1State) ∧
    Lua.checked_set "g" failPusher c1State = some (some (), c1State) := by
  refine ⟨?_, ?_, ?_⟩
  · exact (checked_set_failure_is_atomic failPusher (okPusher (Val.num 5))
      failPusher_restores failPusher_appends (okPusher_restores _)
      1 c1State).1 () c1State.stack rfl
  · exact (checked_set_failure_is_atomic (okPusher (Val.num 7)) failPusher
      (okPusher_restores _) (okPusher_appends _) failPusher_restores
      1 c1State).2.1 (Val.num 7 :: c1State.stack) ()
      (Val.num 7 :: c1State.stack) rfl rfl
  · exact (checked_set_failure_is_atomic failPusher failPusher
      failPusher_restores failPusher_appends failPusher_restores
      1 c1State).2.2 "g" ()
      (Val.str "g" :: Val.gtbl :: c1State.stack) rfl

/-! ## C6 — per-entry decode tolerance -/

/-- C6: when the key or the value of the current entry fails to decode into
the requested host types, `LuaTableIterator::next` yields the explicit
"entry undecodable" marker `Some(None)` — an item that is present but
empty — and leaves the iterator unfinished with the entry's key on the
stack at the recorded height, so iteration continues with the subsequent
entries instead of aborting. -/
theorem iterator_marks_undecodable_entry {κ ν : Type}
    (kr : Stack → Int → Option κ) (vr : Stack → Int → Option ν)
    (tindex : Int) (it : LuaTableIterator) (st : LState)
    (t : Table) (curKey k v : Val) (rest : Stack)
    (hfin : it.finished = false)
    (htop : lua_gettop st.stack = it.lastTop)
    (hstack : st.stack = curKey :: rest)
    (ht : (stackIndex st.stack tindex).bind st.getTable = some t)
    (hnext : nextEntry t curKey = some (k, v))
    (hdec : kr (v :: k :: rest) (-2) = none ∨ vr (v :: k :: rest) (-1) = none) :
    LuaTableIterator.next kr vr tindex it st
      = some (some none, it, { st with stack := k :: rest }) := by
  have hnx : lua_next st tindex
      = (true, { st with stack := v :: k :: rest }) := by
    rw [lua_next, ht, hstack]
    have hs : ({ st with stack := curKey :: rest } : LState).stack
        = curKey :: rest := rfl
    rw [show st = { st with stack := curKey :: rest } from by rw [← hstack]]
    simp [hnext]
  have hif : ¬ (it.finished = true) := by rw [hfin]; exact Bool.false_ne_true
  simp only [LuaTableIterator.next, if_neg hif,
    if_neg (not_not_intro htop), hnx]
  rcases hdec with hdk | hdv
  · cases hv' : vr (v :: k :: rest) (-1) <;>
      simp [hdk, hv', pushGuardPop, luaPop]
  · cases hk' : kr (v :: k :: rest) (-2) <;>
      simp [hdv, hk', pushGuardPop, luaPop]

/-- A reader that rejects every slot. -/
def noneReader : Stack → Int → Option Nat := fun _ _ => none

/-- A reader handing back the raw slot value. -/
def rawReader : Stack → Int → Option Val := fun s i => stackIndex s i

/-- An interpreter state iterating a one-entry table: the traversal key nil
sits above the table reference. -/
def c6State : LState :=
  { stack := [Val.nil, Val.tbl 0]
    globals := []
    tables := [[(Val.num 1, Val.str "a")]]
    metas := [none] }

/-- Witness for C6: with a key reader that fails to decode, the first entry
is yielded as the undecodable marker and the iterator stays unfinished. -/
theorem iterator_marks_undecodable_entry_witness :
    LuaTableIterator.next noneReader rawReader 1
      ⟨false, 2⟩ c6State
      = some (some none, ⟨false, 2⟩,
          { c6State with stack := [Val.num 1, Val.tbl 0] }) := by
  exact iterator_marks_undecodable_entry noneReader rawReader 1
    ⟨false, 2⟩ c6State [(Val.num 1, Val.str "a")]
    Val.nil (Val.num 1) (Val.str "a") [Val.tbl 0]
    rfl rfl rfl rfl rfl (Or.inl rfl)

/-! ## C8 — WrongType descriptor construction -/

/-- The spec's wording for a multi-value descriptor: the observed names as a
comma-separated list. -/
def joinComma : List String → String
  | [] => ""
  | [a] => a
  | a :: b :: rest => a ++ ", " ++ joinComma (b :: rest)

/-- The spec's wording of the `typenames` descriptor, to be compared with the
implementation: zero observed values give `"()"`, one gives the bare name,
several give the parenthesized comma-separated list of all observed names. -/
def typenamesSpec (s : Stack) (start count : Nat) : String :=
  match count with
  | 0 => "()"
  | 1 => typenameAt s start
  | _ =>
    "(" ++ joinComma ((List.range count).map fun j => typenameAt s (start + j))
      ++ ")"

/-- Appending one more name to a non-empty comma-separated list. -/
theorem joinComma_append_one (l : List String) (x : String) (h : l ≠ []) :
    joinComma (l ++ [x]) = joinComma l ++ ", " ++ x := by
  induction l with
  | nil => exact absurd rfl h
  | cons a rest ih =>
    cases rest with
    | nil => simp [joinComma]
    | cons b rest₂ =>
      have hr := ih (by simp)
      simp only [List.cons_append] at hr ⊢
      simp only [joinComma]
      rw [hr]
      simp [String.append_assoc]

/-- The fold of `typenames` builds the comma-separated list of the first `m`
observed names followed by a trailing separator. -/
theorem typenames_foldl (s : Stack) (start : Nat) :
    ∀ m, 1 ≤ m →
      (List.range m).foldl
          (fun acc j => acc ++ typenameAt s (start + j) ++ ", ") "("
        = "(" ++ joinComma ((List.range m).map fun j => typenameAt s (start + j))
            ++ ", " := by
  intro m
  induction m with
  | zero => intro h; omega
  | succ n ih =>
    intro _
    rcases Nat.eq_zero_or_pos n with hn | hn
    · subst hn
      simp [List.range_succ, joinComma, String.append_assoc]
    · have hih := ih hn
      have hne : ((List.range n).map fun j => typenameAt s (start + j)) ≠ [] := by
        simp
        omega
      rw [List.range_succ, List.foldl_append, List.map_append, hih]
      simp only [List.map_cons, List.map_nil, List.foldl_cons, List.foldl_nil]
      rw [joinComma_append_one _ _ hne]
      simp [String.append_assoc]

/-- The implementation's descriptor equals the spec's comma-separated-list
description at every stack, start position and count. -/
theorem typenames_eq_spec (s : Stack) (start count : Nat) :
    typenames s start count = typenamesSpec s start count := by
  match count with
  | 0 => rfl
  | 1 => rfl
  | n + 2 =>
    have hfold := typenames_foldl s start (n + 1) (by omega)
    have hne : ((List.range (n + 1)).map fun j => typenameAt s (start + j)) ≠ [] := by
      simp
    show ((List.range (n + 1)).foldl
          (fun acc j => acc ++ typenameAt s (start + j) ++ ", ") "(")
        ++ typenameAt s (start + (n + 1)) ++ ")"
      = "(" ++ joinComma ((List.range (n + 2)).map fun j => typenameAt s (start + j))
          ++ ")"
    rw [hfold]
    rw [show List.range (n + 2) = List.range (n + 1) ++ [n + 1] from
      List.range_succ (n + 1)]
    rw [List.map_append, List.map_cons, List.map_nil,
      joinComma_append_one _ _ hne]
    simp [String.append_assoc]

/-- A stack of four produced values, from bottom to top: number, string,
number, boolean. -/
def c8Stack : Stack := [Val.boolean true, Val.num 3, Val.str "x", Val.num 1]

/-- C8: a failed typed read produces `WrongType` carrying the expected host
type's name and the observed dynamic type names, where the actual descriptor
joins all observed positions as a parenthesized comma-separated list — zero
values give `"()"`, one value gives the bare name — and the error built when
reading produced call results (arity mismatch included) covers all observed
values, here the fourth value's type beyond a requested 3-tuple. -/
theorem wrong_type_descriptor :
    (∀ s start count, typenames s start count = typenamesSpec s start count) ∧
    (∀ expected s n_values, LuaError.wrong_type expected s n_values
        = .wrongType expected
            (typenamesSpec s (absoluteIndex s (-(n_values : Int))).toNat
              n_values)) ∧
    typenames c8Stack 1 0 = "()" ∧
    typenames c8Stack 4 1 = "boolean" ∧
    typenames c8Stack 2 3 = "(string, number, boolean)" ∧
    callReadError "(i32, i32, i32)" c8Stack 4
      = .wrongType "(i32, i32, i32)" "(number, string, number, boolean)" := by
  refine ⟨typenames_eq_spec, ?_, rfl, rfl, ?_, ?_⟩
  · intro expected s n_values
    simp only [LuaError.wrong_type]
    rw [typenames_eq_spec]
  · decide
  · decide

/-! ## C9 — metatable get-or-create is idempotent -/

/-- The last element appended to a list sits at the old length. -/
theorem nth_append_self {α : Type _} (l : List α) (x : α) :
    nth (l ++ [x]) l.length = some x := by
  induction l with
  | nil => rfl
  | cons a rest ih => exact ih

/-- A successful `lua_getmetatable`: the table at `tindex` has metatable
`m`, which gets pushed. -/
theorem lua_getmetatable_hit (st : LState) (tindex : Int) (id m : Nat)
    (hres : stackIndex st.stack tindex = some (Val.tbl id))
    (hm : nth st.metas id = some (some m)) :
    lua_getmetatable st tindex
      = (true, { st with stack := Val.tbl m :: st.stack }) := by
  simp only [lua_getmetatable, hres, hm]

/-- A failed `lua_getmetatable`: the table at `tindex` has no metatable, and
nothing is pushed. -/
theorem lua_getmetatable_miss (st : LState) (tindex : Int) (id : Nat)
    (hres : stackIndex st.stack tindex = some (Val.tbl id))
    (hm : nth st.metas id = some none) :
    lua_getmetatable st tindex = (false, st) := by
  simp only [lua_getmetatable, hres, hm]

/-- `get_or_create_metatable` on a table that already has a metatable only
pushes that metatable, changing nothing else. -/
theorem get_or_create_metatable_hit (tindex : Int) (st : LState) (id m : Nat)
    (hres : stackIndex st.stack tindex = some (Val.tbl id))
    (hm : nth st.metas id = some (some m)) :
    LuaTable.get_or_create_metatable tindex st
      = { st with stack := Val.tbl m :: st.stack } := by
  simp only [LuaTable.get_or_create_metatable,
    lua_getmetatable_hit st tindex id m hres hm]

/-- C9: on a table with no metatable, `get_or_create_metatable` installs a
fresh empty metatable and leaves exactly one new slot (that metatable) on the
stack for the returned one-slot guard; calling it again on the resulting
state returns the same already-installed metatable — again exactly one new
slot, with the heap of tables and the metatable assignments untouched. -/
theorem get_or_create_metatable_idempotent (tindex : Int) (st : LState)
    (id : Nat)
    (hpos : 0 < tindex) (hle : tindex.toNat ≤ st.stack.length)
    (hres : stackIndex st.stack tindex = some (Val.tbl id))
    (hnometa : nth st.metas id = some none) :
    LuaTable.get_or_create_metatable tindex st
      = { stack := Val.tbl st.tables.length :: st.stack
          globals := st.globals
          tables := st.tables ++ [[]]
          metas := setNth (st.metas ++ [none]) id (some st.tables.length) } ∧
    nth (LuaTable.get_or_create_metatable tindex st).tables st.tables.length
      = some [] ∧
    LuaTable.get_or_create_metatable tindex
        (LuaTable.get_or_create_metatable tindex st)
      = { LuaTable.get_or_create_metatable tindex st with
          stack := Val.tbl st.tables.length
            :: (LuaTable.get_or_create_metatable tindex st).stack } := by
  have hidlt : id < st.metas.length := nth_lt_length _ _ _ hnometa
  have hmetaSet : nth (setNth (st.metas ++ [none]) id
      (some st.tables.length)) id = some (some st.tables.length) := by
    apply nth_setNth_self
    rw [List.length_append]
    omega
  have hup : ∀ x, stackIndex (x :: st.stack) tindex = some (Val.tbl id) := by
    intro x
    rw [stackIndex_cons x st.stack tindex hpos hle]
    exact hres
  have hfirst : LuaTable.get_or_create_metatable tindex st
      = { stack := Val.tbl st.tables.length :: st.stack
          globals := st.globals
          tables := st.tables ++ [[]]
          metas := setNth (st.metas ++ [none]) id (some st.tables.length) } := by
    simp only [LuaTable.get_or_create_metatable,
      lua_getmetatable_miss st tindex id hres hnometa, lua_newtable]
    rw [show lua_setmetatable
        { st with
          stack := Val.tbl st.tables.length :: st.stack
          tables := st.tables ++ [[]]
          metas := st.metas ++ [none] } tindex
      = { st with
          stack := st.stack
          tables := st.tables ++ [[]]
          metas := setNth (st.metas ++ [none]) id (some st.tables.length) }
      from by simp only [lua_setmetatable, hup]]
    simp only [lua_getmetatable, hres, hmetaSet]
  refine ⟨hfirst, ?_, ?_⟩
  · rw [hfirst]
    exact nth_append_self st.tables []
  · rw [hfirst]
    exact get_or_create_metatable_hit tindex _ id st.tables.length
      (hup (Val.tbl st.tables.length)) hmetaSet

/-- A state holding one table (with no metatable) on the stack. -/
def c9State : LState :=
  { stack := [Val.tbl 0], globals := [], tables := [[]], metas := [none] }

/-- Witness for C9: the first call installs the empty metatable (table 1),
the second call returns that same metatable, both leaving exactly one new
slot. -/
theorem get_or_create_metatable_idempotent_witness :
    LuaTable.get_or_create_metatable 1 c9State
      = { stack := [Val.tbl 1, Val.tbl 0], globals := [],
          tables := [[], []], metas := [some 1, none] } ∧
    LuaTable.get_or_create_metatable 1
        (LuaTable.get_or_create_metatable 1 c9State)
      = { stack := [Val.tbl 1, Val.tbl 1, Val.tbl 0], globals := [],
          tables := [[], []], metas := [some 1, none] } := by
  have h := get_or_create_metatable_idempotent 1 c9State 0
    (by decide) (by decide) (by decide) rfl
  refine ⟨?_, ?_⟩
  · rw [h.1]
    decide
  · rw [h.2.2, h.1]
    decide

/-! ## C7 — iteration exhaustion and restartability -/

/-- The pending part of a traversal is a suffix of the table (afterKey
form). -/
theorem afterKey_suffix (t : Table) (k : Val) :
    ∃ pre, t = pre ++ afterKey t k := by
  induction t with
  | nil => exact ⟨[], rfl⟩
  | cons hd rest ih =>
    obtain ⟨k', v'⟩ := hd
    by_cases hk : k' = k
    · exact ⟨[(k', v')], by simp [afterKey, hk]⟩
    · obtain ⟨pre, hpre⟩ := ih
      refine ⟨(k', v') :: pre, ?_⟩
      simp only [afterKey, hk, if_false, List.cons_append]
      rw [← hpre]

/-- The pending part of a traversal is a suffix of the table. -/
theorem pendingAfter_suffix (t : Table) (k : Val) :
    ∃ pre, t = pre ++ pendingAfter t k := by
  cases k with
  | nil => exact ⟨[], rfl⟩
  | boolean b => exact afterKey_suffix t _
  | num n => exact afterKey_suffix t _
  | str s => exact afterKey_suffix t _
  | tbl i => exact afterKey_suffix t _
  | gtbl => exact afterKey_suffix t _

/-- For a non-nil traversal key the pending part is `afterKey`. -/
theorem pendingAfter_ne_nil (t : Table) (k : Val) (h : k ≠ Val.nil) :
    pendingAfter t k = afterKey t k := by
  cases k with
  | nil => exact absurd rfl h
  | boolean b => rfl
  | num n => rfl
  | str s => rfl
  | tbl i => rfl
  | gtbl => rfl

/-- With no duplicate keys, the entries after a key that heads the list's
tail part are exactly that tail. -/
theorem afterKey_append (pre tl : Table) (k₁ v₁ : Val)
    (hnodup : ((pre ++ (k₁, v₁) :: tl).map Prod.fst).Nodup) :
    afterKey (pre ++ (k₁, v₁) :: tl) k₁ = tl := by
  induction pre with
  | nil => simp [afterKey]
  | cons hd rest ih =>
    obtain ⟨k₀, v₀⟩ := hd
    simp only [List.cons_append, List.map_cons, List.nodup_cons] at hnodup
    have hne : k₀ ≠ k₁ := by
      intro hEq
      subst hEq
      exact hnodup.1 (by simp)
    simp only [List.cons_append, afterKey, hne, if_false]
    exact ih hnodup.2

/-- Advancing the traversal: with distinct, non-nil keys, the entries pending
after the key the traversal just yielded are the tail of what was pending
before. -/
theorem pendingAfter_step (t : Table)
    (hnodup : (t.map Prod.fst).Nodup) (hnonil : Val.nil ∉ t.map Prod.fst)
    (c k₁ v₁ : Val) (tl : Table)
    (h : pendingAfter t c = (k₁, v₁) :: tl) :
    pendingAfter t k₁ = tl := by
  obtain ⟨pre, hpre⟩ := pendingAfter_suffix t c
  rw [h] at hpre
  have hmem : k₁ ∈ t.map Prod.fst := by rw [hpre]; simp
  have hk₁ : k₁ ≠ Val.nil := by
    intro hEq
    rw [hEq] at hmem
    exact hnonil hmem
  rw [pendingAfter_ne_nil t k₁ hk₁, hpre]
  exact afterKey_append pre tl k₁ v₁ (hpre ▸ hnodup)

/-- One driver step at exhaustion: when `next` reports the end, the run
stops with no further items. -/
theorem runIter_succ_of_exhaust {κ ν : Type} (kr : Stack → Int → Option κ)
    (vr : Stack → Int → Option ν) (tindex : Int) (fuel : Nat)
    (it it₂ : LuaTableIterator) (st st₂ : LState)
    (h : LuaTableIterator.next kr vr tindex it st = some (none, it₂, st₂)) :
    runIter kr vr tindex (fuel + 1) it st = some ([], st₂) := by
  unfold runIter
  rw [h]

/-- One driver step on a yielded item: the run records the item and
continues. -/
theorem runIter_succ_of_yield {κ ν : Type} (kr : Stack → Int → Option κ)
    (vr : Stack → Int → Option ν) (tindex : Int) (fuel : Nat)
    (it it₂ : LuaTableIterator) (st st₂ st₃ : LState)
    (item : Option (κ × ν)) (items : List (Option (κ × ν)))
    (h : LuaTableIterator.next kr vr tindex it st
      = some (some item, it₂, st₂))
    (hrec : runIter kr vr tindex fuel it₂ st₂ = some (items, st₃)) :
    runIter kr vr tindex (fuel + 1) it st = some (item :: items, st₃) := by
  unfold runIter
  rw [h]
  simp only []
  rw [hrec]

/-- The iteration loop, relative to a base state with the traversal key on
top: it yields one item per pending entry, ends with exhaustion, and hands
the base state back. -/
theorem runIter_go {κ ν : Type} (kr : Stack → Int → Option κ)
    (vr : Stack → Int → Option ν) (tindex : Int)
    (base : LState) (id : Nat) (t : Table)
    (hpos : 0 < tindex) (hle : tindex.toNat ≤ base.stack.length)
    (hres : stackIndex base.stack tindex = some (Val.tbl id))
    (ht : nth base.tables id = some t)
    (hnodup : (t.map Prod.fst).Nodup)
    (hnonil : Val.nil ∉ t.map Prod.fst) :
    ∀ (pending : Table) (curKey : Val),
      pendingAfter t curKey = pending →
      ∃ items : List (Option (κ × ν)),
        runIter kr vr tindex (pending.length + 1)
            ⟨false, base.stack.length + 1⟩
            { base with stack := curKey :: base.stack }
          = some (items, base) ∧ items.length = pending.length := by
  have hup : ∀ x, stackIndex (x :: base.stack) tindex
      = some (Val.tbl id) := by
    intro x
    rw [stackIndex_cons x base.stack tindex hpos hle]
    exact hres
  have hlook : ∀ c : Val, ((stackIndex (c :: base.stack) tindex).bind
      (LState.getTable { base with stack := c :: base.stack })) = some t := by
    intro c
    rw [hup c]
    exact ht
  have hstepSome : ∀ c k v, nextEntry t c = some (k, v) →
      lua_next { base with stack := c :: base.stack } tindex
        = (true, { base with stack := v :: k :: base.stack }) := by
    intro c k v hne
    simp only [lua_next, hlook c, hne]
  have hstepNone : ∀ c, nextEntry t c = none →
      lua_next { base with stack := c :: base.stack } tindex
        = (false, base) := by
    intro c hne
    simp only [lua_next, hlook c, hne]
  have hnotop : ∀ c : Val,
      ¬ (lua_gettop (c :: base.stack) ≠ base.stack.length + 1) := by
    intro c
    simp [lua_gettop]
  have hcallSome : ∀ c k v, nextEntry t c = some (k, v) →
      ∃ item, LuaTableIterator.next kr vr tindex
          ⟨false, base.stack.length + 1⟩
          { base with stack := c :: base.stack }
        = some (some item, ⟨false, base.stack.length + 1⟩,
            { base with stack := k :: base.stack }) := by
    intro c k v hne
    have hred := hstepSome c k v hne
    cases hk : kr (v :: k :: base.stack) (-2) with
    | none =>
      refine ⟨none, ?_⟩
      simp only [LuaTableIterator.next, Bool.false_eq_true, if_false,
        if_neg (hnotop c), hred, hk, pushGuardPop, luaPop]
      cases hv : vr (v :: k :: base.stack) (-1) <;> simp [hv]
    | some kk =>
      cases hv : vr (v :: k :: base.stack) (-1) with
      | none =>
        refine ⟨none, ?_⟩
        simp only [LuaTableIterator.next, Bool.false_eq_true, if_false,
          if_neg (hnotop c), hred, hk, hv, pushGuardPop, luaPop]
        simp
      | some vv =>
        refine ⟨some (kk, vv), ?_⟩
        simp only [LuaTableIterator.next, Bool.false_eq_true, if_false,
          if_neg (hnotop c), hred, hk, hv, pushGuardPop, luaPop]
        simp
  have hcallNone : ∀ c, nextEntry t c = none →
      LuaTableIterator.next kr vr tindex
          ⟨false, base.stack.length + 1⟩
          { base with stack := c :: base.stack }
        = some (none, ⟨true, base.stack.length + 1⟩, base) := by
    intro c hne
    simp only [LuaTableIterator.next, Bool.false_eq_true, if_false,
      if_neg (hnotop c), hstepNone c hne]
  intro pending
  induction pending with
  | nil =>
    intro c hpend
    refine ⟨[], ?_, rfl⟩
    have hne : nextEntry t c = none := by
      rw [nextEntry, hpend]
      rfl
    exact runIter_succ_of_exhaust kr vr tindex _ _ _ _ _ (hcallNone c hne)
  | cons hd tl ih =>
    intro c hpend
    obtain ⟨k₁, v₁⟩ := hd
    have hne : nextEntry t c = some (k₁, v₁) := by
      rw [nextEntry, hpend]
      rfl
    have hstep : pendingAfter t k₁ = tl :=
      pendingAfter_step t hnodup hnonil c k₁ v₁ tl hpend
    obtain ⟨items, hrun, hlen⟩ := ih k₁ hstep
    obtain ⟨item, hcall⟩ := hcallSome c k₁ v₁ hne
    refine ⟨item :: items, ?_, by simp [hlen]⟩
    exact runIter_succ_of_yield kr vr tindex _ _ _ _ _ _ _ _ hcall hrun

/-- C7: iterating a table of N entries from a fresh iterator yields exactly
N items and then exhaustion, with the final state exactly the pre-iteration
one (stack back at its pre-iteration height); requesting a fresh iterator
over the state the run ended in yields exactly N items again. -/
theorem iteration_exhausts_and_restarts {κ ν : Type}
    (kr : Stack → Int → Option κ) (vr : Stack → Int → Option ν)
    (tindex : Int) (st : LState) (id : Nat) (t : Table)
    (hpos : 0 < tindex) (hle : tindex.toNat ≤ st.stack.length)
    (hres : stackIndex st.stack tindex = some (Val.tbl id))
    (ht : nth st.tables id = some t)
    (hnodup : (t.map Prod.fst).Nodup)
    (hnonil : Val.nil ∉ t.map Prod.fst) :
    ∃ items : List (Option (κ × ν)),
      runIter kr vr tindex (t.length + 1)
          (LuaTable.iter st).1 (LuaTable.iter st).2
        = some (items, st) ∧ items.length = t.length ∧
      ∀ stEnd itemsA,
        runIter kr vr tindex (t.length + 1)
            (LuaTable.iter st).1 (LuaTable.iter st).2
          = some (itemsA, stEnd) →
        ∃ itemsB, runIter kr vr tindex (t.length + 1)
            (LuaTable.iter stEnd).1 (LuaTable.iter stEnd).2
          = some (itemsB, stEnd) ∧ itemsB.length = t.length := by
  obtain ⟨items, hrun, hlen⟩ := runIter_go kr vr tindex st id t
    hpos hle hres ht hnodup hnonil t Val.nil rfl
  refine ⟨items, hrun, hlen, ?_⟩
  intro stEnd itemsA hA
  rw [show (LuaTable.iter st).1
        = (⟨false, List.length st.stack + 1⟩ : LuaTableIterator) from rfl,
      show (LuaTable.iter st).2
        = { st with stack := Val.nil :: st.stack } from rfl,
      hrun] at hA
  injection hA with hPair
  injection hPair with hItems hEnd
  subst hEnd
  exact ⟨items, hrun, hlen⟩

/-- The pre-iteration state for the concrete C7 run: a two-entry table. -/
def c7State : LState :=
  { stack := [Val.tbl 0]
    globals := []
    tables := [[(Val.num 1, Val.str "a"), (Val.num 2, Val.str "b")]]
    metas := [none] }

/-- Witness for C7: the two-entry table yields exactly two items and hands
back the pre-iteration state. -/
theorem iteration_exhausts_and_restarts_witness :
    ∃ items : List (Option (Val × Val)),
      runIter rawReader rawReader 1 3
          (LuaTable.iter c7State).1 (LuaTable.iter c7State).2
        = some (items, c7State) ∧ items.length = 2 := by
  obtain ⟨items, hrun, hlen, -⟩ :=
    iteration_exhausts_and_restarts rawReader rawReader 1 c7State 0
      [(Val.num 1, Val.str "a"), (Val.num 2, Val.str "b")]
      (by decide) (by decide) (by decide) rfl (by decide) (by decide)
  exact ⟨items, hrun, hlen⟩

end Tlua
